import Mathlib

/-!
Shallow embedding of the `iuliia-rust` transliteration library
(`src/lib.rs`) and verification of its specification.

Strings are modelled as Lean `String` (a structure over `List Char`).
Rust's Unicode case operations (`char::is_uppercase`, `str::to_lowercase`,
`str::to_uppercase`) are modelled restricted to the scripts the library
works with: ASCII Latin and the Russian Cyrillic alphabet (А..Я, а..я,
Ё/ё).  `HashMap<String, String>` is modelled as an association list with
first-match lookup.  The word segmenter (the `regex` crate's `\b`
word-boundary split) is modelled as splitting the character sequence into
maximal runs of equal word-character class.
-/

/-- The sentinel marker `DUMMY_SYMBOL` from the source (`const DUMMY_SYMBOL: &str = "$"`). -/
def DUMMY_SYMBOL : String := "$"

/-- Models `s.replace(DUMMY_SYMBOL, "")`: removes every occurrence of the
single-character sentinel `"$"` from the string. -/
def stripDummy (s : String) : String :=
  String.mk (s.data.filter (fun c => c != '$'))

/-- Models Rust `char::is_uppercase`, restricted to ASCII Latin (A-Z) and
Russian Cyrillic (А-Я, Ё). -/
def charIsUppercase (c : Char) : Bool :=
  decide ((65 ≤ c.toNat ∧ c.toNat ≤ 90) ∨ (1040 ≤ c.toNat ∧ c.toNat ≤ 1071) ∨ c.toNat = 1025)

/-- Models Rust per-character lowercasing, restricted to ASCII Latin and
Russian Cyrillic: A-Z ↦ a-z, А-Я ↦ а-я, Ё ↦ ё, all other characters fixed. -/
def charToLower (c : Char) : Char :=
  if 65 ≤ c.toNat ∧ c.toNat ≤ 90 then Char.ofNat (c.toNat + 32)
  else if 1040 ≤ c.toNat ∧ c.toNat ≤ 1071 then Char.ofNat (c.toNat + 32)
  else if c.toNat = 1025 then Char.ofNat 1105
  else c

/-- Models Rust per-character uppercasing, restricted to ASCII Latin and
Russian Cyrillic: a-z ↦ A-Z, а-я ↦ А-Я, ё ↦ Ё, all other characters fixed. -/
def charToUpper (c : Char) : Char :=
  if 97 ≤ c.toNat ∧ c.toNat ≤ 122 then Char.ofNat (c.toNat - 32)
  else if 1072 ≤ c.toNat ∧ c.toNat ≤ 1103 then Char.ofNat (c.toNat - 32)
  else if c.toNat = 1105 then Char.ofNat 1025
  else c

/-- Models `str::to_lowercase`, character by character. -/
def lowerString (s : String) : String :=
  String.mk (s.data.map charToLower)

/-- Models `str::to_uppercase`, character by character. -/
def upperString (s : String) : String :=
  String.mk (s.data.map charToUpper)

/-- Models `HashMap<String, String>` lookup as first-match search in an
association list. -/
def tableGet (t : List (String × String)) (k : String) : Option String :=
  match t with
  | [] => none
  | (k2, v) :: rest => if k2 = k then some v else tableGet rest k

/-- The `Schema` struct from the source: four optional mapping tables plus
descriptive metadata. -/
structure Schema where
  name : String
  description : String
  url : String
  mapping : Option (List (String × String))
  prev_mapping : Option (List (String × String))
  next_mapping : Option (List (String × String))
  ending_mapping : Option (List (String × String))
  samples : Option (List (List String))

/-- `Schema::get_pref`: strip the sentinel, lowercase, look up in `prev_mapping`. -/
def Schema.get_pref (schema : Schema) (s : String) : Option String :=
  schema.prev_mapping.bind (fun x => tableGet x (lowerString (stripDummy s)))

/-- `Schema::get_next`: strip the sentinel, lowercase, look up in `next_mapping`. -/
def Schema.get_next (schema : Schema) (s : String) : Option String :=
  schema.next_mapping.bind (fun x => tableGet x (lowerString (stripDummy s)))

/-- `Schema::get_letter`: strip the sentinel, lowercase, look up in `mapping`. -/
def Schema.get_letter (schema : Schema) (s : String) : Option String :=
  schema.mapping.bind (fun x => tableGet x (lowerString (stripDummy s)))

/-- `Schema::get_ending`: lowercase only (no sentinel stripping), look up in
`ending_mapping`. -/
def Schema.get_ending (schema : Schema) (s : String) : Option String :=
  schema.ending_mapping.bind (fun x => tableGet x (lowerString s))

/-- `propagate_case_from_source`: reapply the source's capitalization to the
resolved output. -/
def propagate_case_from_source (result : String) (source_letter : String)
    (only_first_symbol : Bool) : String :=
  if !(source_letter.data.any charIsUppercase) then
    result
  else if only_first_symbol then
    match result.data with
    | [] => ""
    | f :: rest => String.singleton (charToUpper f) ++ String.mk rest
  else
    upperString result

/-- The `Ending` struct: resolved ending output plus the index where the
matched ending starts. -/
structure Ending where
  translate : String
  ending_start : Nat
deriving DecidableEq

/-- Models `.concat()` on a slice of strings (and `.collect::<String>()` on an
iterator of strings): concatenation in order with no separators. -/
def strConcat : List String → String
  | [] => ""
  | s :: rest => s ++ strConcat rest

/-- `parse_ending`: for a word's letter sequence, try the last 1 letter, then
the last 2 letters, as an ending key; words of fewer than 3 letters never
match. -/
def parse_ending (s : List String) (schema : Schema) : Option Ending :=
  let length := s.length
  if length < 3 then
    none
  else
    match schema.get_ending (strConcat (s.drop (length - 1))) with
    | some matched =>
        some ⟨propagate_case_from_source matched (strConcat (s.drop (length - 1))) false,
              length - 1⟩
    | none =>
        (schema.get_ending (strConcat (s.drop (length - 2)))).map
          (fun matched =>
            ⟨propagate_case_from_source matched (strConcat (s.drop (length - 2))) false,
             length - 2⟩)

/-- `parse_letter`: resolve one letter from its 3-element window
`(prev, cur, next)` with priority `get_pref`, then `get_next`, then
`get_letter`, then the letter itself; the chosen result is case-propagated
against `cur` with the first-symbol-only rule. -/
def parse_letter (w : String × String × String) (schema : Schema) : String :=
  let letter : String := w.2.1
  propagate_case_from_source
    ((((schema.get_pref (w.1 ++ w.2.1)).orElse
        (fun _ => schema.get_next (w.2.1 ++ w.2.2))).orElse
        (fun _ => schema.get_letter letter)).getD letter)
    letter
    true

/-- Models `.windows(3)` on a vector: every consecutive 3-element slice, in
order. -/
def windows3 : List String → List (String × String × String)
  | a :: b :: c :: rest => (a, b, c) :: windows3 (b :: c :: rest)
  | _ => []

/-- `parse_word_by_schema`: split the word token into single-character
strings, resolve the ending, bracket the remaining body with one sentinel on
each side, resolve every width-3 window, and append the ending's output. -/
def parse_word_by_schema (s : String) (schema : Schema) : String :=
  let word_by_letters : List String := s.data.map String.singleton
  let ending := parse_ending word_by_letters schema
  let parsed_end : String :=
    match ending with
    | some e => e.translate
    | none => ""
  let word_without_ending : List String :=
    match ending with
    | some e => word_by_letters.take e.ending_start
    | none => word_by_letters
  strConcat
      ((windows3 ([DUMMY_SYMBOL] ++ word_without_ending ++ [DUMMY_SYMBOL])).map
        (fun w => parse_letter w schema))
    ++ parsed_end

/-- Models the `regex` crate's `\b` word-boundary class: ASCII letters and
digits, underscore, and the Cyrillic block. -/
def isWordChar (c : Char) : Bool :=
  c.isAlphanum || c == '_' || decide (1024 ≤ c.toNat ∧ c.toNat ≤ 1279)

/-- Models `Regex::new(r"\b").split(s)` from `parse_by_schema`: the
word-boundary split cuts exactly at transitions between word characters and
non-word characters, so segments are maximal runs of equal word-character
class.  (The Rust split additionally emits zero-width empty segments at a
boundary at the very start or end of the string; an empty segment
transliterates to the empty string, so the modelled output of
`parse_by_schema` is unchanged.) -/
def segmentChars : List Char → List (List Char)
  | [] => []
  | c :: cs =>
    match segmentChars cs with
    | [] => [[c]]
    | [] :: rest => [c] :: rest
    | (d :: ds) :: rest =>
        if isWordChar c == isWordChar d then (c :: d :: ds) :: rest
        else [c] :: (d :: ds) :: rest

/-- The word segmenter over a `String`. -/
def wordSegments (s : String) : List String :=
  (segmentChars s.data).map String.mk

/-- `parse_by_schema`: split on word boundaries, transliterate every segment,
concatenate. -/
def parse_by_schema (s : String) (schema : Schema) : String :=
  strConcat ((wordSegments s).map (fun word => parse_word_by_schema word schema))

/-- A small concrete schema used to instantiate proved theorems on concrete
inputs. -/
def testSchema : Schema where
  name := "test"
  description := "test schema"
  url := ""
  mapping := some [("а", "a"), ("б", "b"), ("х", "kh"), ("и", "i")]
  prev_mapping := some [("ба", "x")]
  next_mapping := some [("аб", "y")]
  ending_mapping := some [("й", "y"), ("ий", "iy")]
  samples := none

/-- A schema with every table absent, exercising the table-absence branch of
the lookups. -/
def emptySchema : Schema where
  name := "empty"
  description := ""
  url := ""
  mapping := none
  prev_mapping := none
  next_mapping := none
  ending_mapping := none
  samples := none

/-- The word token's letters, as single-character strings (the
`word_by_letters` vector of `parse_word_by_schema`). -/
def wordLetters (s : String) : List String :=
  s.data.map String.singleton

/-- The ending-stripped body of a word token: the letters before the matched
ending's start index, or all letters when no ending matches. -/
def wordBody (s : String) (schema : Schema) : List String :=
  match parse_ending (wordLetters s) schema with
  | some e => (wordLetters s).take e.ending_start
  | none => wordLetters s

/-- The resolved ending output of a word token, or the empty string when no
ending matches. -/
def wordTail (s : String) (schema : Schema) : String :=
  match parse_ending (wordLetters s) schema with
  | some e => e.translate
  | none => ""

theorem str_append_empty (s : String) : s ++ "" = s := by
  rcases s with ⟨l⟩
  show String.mk (l ++ []) = String.mk l
  rw [List.append_nil]

theorem charToUpper_of_isUppercase {c : Char} (h : charIsUppercase c = true) :
    charToUpper c = c := by
  have h' : (65 ≤ c.toNat ∧ c.toNat ≤ 90) ∨ (1040 ≤ c.toNat ∧ c.toNat ≤ 1071) ∨
      c.toNat = 1025 := of_decide_eq_true h
  have n1 : ¬(97 ≤ c.toNat ∧ c.toNat ≤ 122) := by omega
  have n2 : ¬(1072 ≤ c.toNat ∧ c.toNat ≤ 1103) := by omega
  have n3 : ¬(c.toNat = 1105) := by omega
  rw [charToUpper, if_neg n1, if_neg n2, if_neg n3]

theorem propagate_singleton_self (c : Char) :
    propagate_case_from_source (String.singleton c) (String.singleton c) true =
      String.singleton c := by
  by_cases h : charIsUppercase c = true
  · have : (String.singleton c).data.any charIsUppercase = true := by
      show [c].any charIsUppercase = true
      simp [h]
    rw [propagate_case_from_source, this]
    show String.singleton (charToUpper c) ++ String.mk [] = String.singleton c
    rw [charToUpper_of_isUppercase h, str_append_empty]
  · have : (String.singleton c).data.any charIsUppercase = false := by
      show [c].any charIsUppercase = false
      simp [h]
    rw [propagate_case_from_source, this]
    rfl

theorem stripDummy_dummy_append (s : String) :
    stripDummy (DUMMY_SYMBOL ++ s) = stripDummy s := by
  rcases s with ⟨l⟩
  show String.mk (List.filter _ ('$' :: l)) = _
  rw [List.filter_cons_of_neg]
  · rfl
  · decide

theorem stripDummy_append_dummy (s : String) :
    stripDummy (s ++ DUMMY_SYMBOL) = stripDummy s := by
  rcases s with ⟨l⟩
  show String.mk (List.filter _ (l ++ ['$'])) = _
  rw [List.filter_append]
  have : List.filter (fun c => c != '$') ['$'] = [] := by decide
  rw [this, List.append_nil]
  rfl

theorem stripDummy_stripDummy (s : String) :
    stripDummy (stripDummy s) = stripDummy s := by
  rcases s with ⟨l⟩
  show String.mk (List.filter _ (List.filter _ l)) = _
  rw [List.filter_filter]
  congr 1
  apply List.filter_congr
  intro c _
  cases h : (c != '$') <;> simp [h]

theorem windows3_middles (l : List String) :
    ∀ x d : String, (windows3 (x :: (l ++ [d]))).map (fun w => w.2.1) = l := by
  induction l with
  | nil =>
    intro x d
    rfl
  | cons b t ih =>
    intro x d
    cases t with
    | nil => rfl
    | cons c t2 =>
      show (((x, b, c) :: windows3 (b :: c :: (t2 ++ [d]))).map (fun w => w.2.1)) = b :: c :: t2
      rw [List.map_cons]
      have := ih b d
      simp only [List.cons_append] at this
      rw [this]

theorem strConcat_map_mk (ll : List (List Char)) :
    strConcat (ll.map String.mk) = String.mk ll.flatten := by
  induction ll with
  | nil => rfl
  | cons a t ih =>
    show String.mk a ++ strConcat (t.map String.mk) = _
    rw [ih]
    show String.mk (a ++ t.flatten) = String.mk (a :: t).flatten
    rw [List.flatten_cons]

theorem segmentChars_flatten (l : List Char) : (segmentChars l).flatten = l := by
  induction l with
  | nil => rfl
  | cons c cs ih =>
    simp only [segmentChars]
    rcases hseg : segmentChars cs with _ | ⟨_ | ⟨d, ds⟩, rest⟩ <;> rw [hseg] at ih
    · simp only [List.flatten_nil] at ih
      subst ih
      rfl
    · simp only [List.flatten_cons, List.nil_append] at ih
      simp only [List.flatten_cons, List.singleton_append, ih]
    · by_cases hw : (isWordChar c == isWordChar d) = true
      · simp only [hw, if_true, List.flatten_cons] at *
        simp [ih]
      · simp only [hw, if_false, List.flatten_cons] at *
        simp [ih]

/-- C1: for every 3-element window `(prev, cur, next)` and every schema, the
letter resolver returns the first match in the fixed priority order: the
`prev_mapping` lookup on `prev ++ cur`, else the `next_mapping` lookup on
`cur ++ next`, else the `letter_mapping` lookup on `cur`, else `cur` itself
unchanged; in particular, when both the previous-context key and the
next-context key exist in the schema, the previous-context result is
chosen. -/
theorem parse_letter_priority_order (schema : Schema) (pv cur nx v : String) :
    (schema.get_pref (pv ++ cur) = some v →
      parse_letter (pv, cur, nx) schema = propagate_case_from_source v cur true) ∧
    (schema.get_pref (pv ++ cur) = none →
      schema.get_next (cur ++ nx) = some v →
      parse_letter (pv, cur, nx) schema = propagate_case_from_source v cur true) ∧
    (schema.get_pref (pv ++ cur) = none →
      schema.get_next (cur ++ nx) = none →
      schema.get_letter cur = some v →
      parse_letter (pv, cur, nx) schema = propagate_case_from_source v cur true) ∧
    (∀ c : Char,
      schema.get_pref (pv ++ String.singleton c) = none →
      schema.get_next (String.singleton c ++ nx) = none →
      schema.get_letter (String.singleton c) = none →
      parse_letter (pv, String.singleton c, nx) schema = String.singleton c) := by
  refine ⟨?_, ?_, ?_, ?_⟩
  · intro h1
    simp [parse_letter, h1, Option.orElse]
  · intro h1 h2
    simp [parse_letter, h1, h2, Option.orElse]
  · intro h1 h2 h3
    simp [parse_letter, h1, h2, h3, Option.orElse]
  · intro c h1 h2 h3
    simp only [parse_letter, h1, h2, h3, Option.orElse, Option.getD]
    exact propagate_singleton_self c

/-- Witness for C1 at a concrete schema where both contextual keys exist:
the previous-context result is chosen. -/
theorem parse_letter_priority_order_witness :
    testSchema.get_pref ("б" ++ "а") = some "x" ∧
    testSchema.get_next ("а" ++ "б") = some "y" ∧
    parse_letter ("б", "а", "б") testSchema = propagate_case_from_source "x" "а" true :=
  ⟨by decide, by decide,
    (parse_letter_priority_order testSchema "б" "а" "б" "x").1 (by decide)⟩

/-- C2: for every schema and every input string, `parse_by_schema` is a total
function (every input has an output value), and the empty input produces the
empty output. -/
theorem parse_by_schema_total (schema : Schema) :
    (∀ s : String, ∃ out : String, parse_by_schema s schema = out) ∧
    parse_by_schema "" schema = "" :=
  ⟨fun _ => ⟨_, rfl⟩, rfl⟩

/-- C3: for every letter sequence of fewer than 3 letters and every schema,
the ending resolver returns no match; and when an ending match is returned,
its start index is at least 1, so at least one body letter remains before the
ending. -/
theorem parse_ending_short_word_none (s : List String) (schema : Schema) :
    (s.length < 3 → parse_ending s schema = none) ∧
    (∀ e : Ending, parse_ending s schema = some e →
      1 ≤ e.ending_start ∧ e.ending_start < s.length) := by
  constructor
  · intro h
    simp [parse_ending, h]
  · intro e he
    by_cases h : s.length < 3
    · simp [parse_ending, h] at he
    · simp only [parse_ending, h, if_false] at he
      split at he
      · cases he
        simp only []
        omega
      · simp only [Option.map_eq_some'] at he
        obtain ⟨m, _, hm⟩ := he
        cases hm
        simp only []
        omega

/-- Witness for C3 at a concrete 1-letter word. -/
theorem parse_ending_short_word_none_witness :
    (["а"] : List String).length < 3 ∧ parse_ending ["а"] testSchema = none :=
  ⟨by decide, (parse_ending_short_word_none ["а"] testSchema).1 (by decide)⟩

/-- C4: for every word of at least 3 letters, the ending resolver first tries
the last 1 letter; a 1-letter match wins and is returned case-propagated with
the full-string rule (`only_first_symbol = false`) with start index
`length - 1`; only if the 1-letter key misses is the last-2-letter key tried,
returned case-propagated the same way with start index `length - 2`; if both
miss, there is no ending. -/
theorem parse_ending_one_letter_first (s : List String) (schema : Schema)
    (h : 3 ≤ s.length) :
    (∀ v, schema.get_ending (strConcat (s.drop (s.length - 1))) = some v →
      parse_ending s schema =
        some ⟨propagate_case_from_source v (strConcat (s.drop (s.length - 1))) false,
              s.length - 1⟩) ∧
    (schema.get_ending (strConcat (s.drop (s.length - 1))) = none →
      ∀ v, schema.get_ending (strConcat (s.drop (s.length - 2))) = some v →
      parse_ending s schema =
        some ⟨propagate_case_from_source v (strConcat (s.drop (s.length - 2))) false,
              s.length - 2⟩) ∧
    (schema.get_ending (strConcat (s.drop (s.length - 1))) = none →
      schema.get_ending (strConcat (s.drop (s.length - 2))) = none →
      parse_ending s schema = none) := by
  have h' : ¬(s.length < 3) := by omega
  refine ⟨?_, ?_, ?_⟩
  · intro v hv
    simp [parse_ending, h', hv]
  · intro h1 v hv
    simp [parse_ending, h', h1, hv]
  · intro h1 h2
    simp [parse_ending, h', h1, h2]

/-- Witness for C4 at a concrete 3-letter word whose last letter is a
1-letter ending key (while the last two letters are also a 2-letter ending
key): the 1-letter match wins. -/
theorem parse_ending_one_letter_first_witness :
    3 ≤ (["х", "и", "й"] : List String).length ∧
    testSchema.get_ending (strConcat ((["х", "и", "й"] : List String).drop 2)) = some "y" ∧
    testSchema.get_ending (strConcat ((["х", "и", "й"] : List String).drop 1)) = some "iy" ∧
    parse_ending ["х", "и", "й"] testSchema = some ⟨"y", 2⟩ :=
  ⟨by decide, by decide, by decide,
    (parse_ending_one_letter_first ["х", "и", "й"] testSchema (by decide)).1 "y" (by decide)⟩

/-- C5: the case propagator is a pure total function with exactly three
branches: if the source contains no uppercase character the result is
returned unchanged (for either flag value); otherwise, if
`only_first_symbol` is true, only the result's first character is uppercased
and the rest is left as-is, with an empty result yielding the empty string;
otherwise the entire result is uppercased. -/
theorem propagate_case_three_branches (result source : String) :
    ((∀ c ∈ source.data, charIsUppercase c = false) →
      ∀ b : Bool, propagate_case_from_source result source b = result) ∧
    ((∃ c ∈ source.data, charIsUppercase c = true) →
      result.data = [] → propagate_case_from_source result source true = "") ∧
    ((∃ c ∈ source.data, charIsUppercase c = true) →
      ∀ f rest, result.data = f :: rest →
        propagate_case_from_source result source true = String.mk (charToUpper f :: rest)) ∧
    ((∃ c ∈ source.data, charIsUppercase c = true) →
      (propagate_case_from_source result source false).data = result.data.map charToUpper) := by
  refine ⟨?_, ?_, ?_, ?_⟩
  · intro h b
    have hany : source.data.any charIsUppercase = false := by
      simp only [List.any_eq_false]
      intro c hc
      simp [h c hc]
    rw [propagate_case_from_source, hany]
    rfl
  · intro h hres
    have hany : source.data.any charIsUppercase = true := by
      simp only [List.any_eq_true]
      exact h
    rcases result with ⟨l⟩
    cases hres
    rw [propagate_case_from_source, hany]
    rfl
  · intro h f rest hres
    have hany : source.data.any charIsUppercase = true := by
      simp only [List.any_eq_true]
      exact h
    rcases result with ⟨l⟩
    cases hres
    rw [propagate_case_from_source, hany]
    rfl
  · intro h
    have hany : source.data.any charIsUppercase = true := by
      simp only [List.any_eq_true]
      exact h
    rw [propagate_case_from_source, hany]
    rfl

/-- Witness for C5 at a concrete uppercase source and multi-character
result: the whole result is uppercased under the full-string rule. -/
theorem propagate_case_three_branches_witness :
    (∃ c ∈ ("Б" : String).data, charIsUppercase c = true) ∧
    (propagate_case_from_source "ab" "Б" false).data = ("ab" : String).data.map charToUpper :=
  ⟨⟨'Б', by decide, by decide⟩,
    (propagate_case_three_branches "ab" "Б").2.2.2 ⟨'Б', by decide, by decide⟩⟩

/-- C6: for every input string, concatenating the word segmenter's output
segments in order (before any transliteration) reproduces the original input
exactly. -/
theorem segmentation_lossless (s : String) : strConcat (wordSegments s) = s := by
  rw [wordSegments, strConcat_map_mk, segmentChars_flatten]

/-- C7: for every schema and every character with no applicable mapping in
any of the schema's tables, transliterating that single character yields the
character itself unchanged, preserving its original case. -/
theorem unmapped_char_passthrough (schema : Schema) (c : Char)
    (h1 : schema.get_pref (DUMMY_SYMBOL ++ String.singleton c) = none)
    (h2 : schema.get_next (String.singleton c ++ DUMMY_SYMBOL) = none)
    (h3 : schema.get_letter (String.singleton c) = none) :
    parse_by_schema (String.singleton c) schema = String.singleton c := by
  have hpl : parse_letter (DUMMY_SYMBOL, String.singleton c, DUMMY_SYMBOL) schema =
      String.singleton c := by
    simp only [parse_letter, h1, h2, h3, Option.orElse, Option.getD]
    exact propagate_singleton_self c
  have hstep : parse_by_schema (String.singleton c) schema =
      ((parse_letter (DUMMY_SYMBOL, String.singleton c, DUMMY_SYMBOL) schema ++ "") ++ "") ++ "" :=
    rfl
  rw [hstep, hpl, str_append_empty, str_append_empty, str_append_empty]

/-- Witness for C7 at a concrete character with no mapping in the concrete
schema: a comma passes through unchanged. -/
theorem unmapped_char_passthrough_witness :
    testSchema.get_pref (DUMMY_SYMBOL ++ String.singleton ',') = none ∧
    testSchema.get_next (String.singleton ',' ++ DUMMY_SYMBOL) = none ∧
    testSchema.get_letter (String.singleton ',') = none ∧
    parse_by_schema (String.singleton ',') testSchema = String.singleton ',' :=
  ⟨by decide, by decide, by decide,
    unmapped_char_passthrough testSchema ',' (by decide) (by decide) (by decide)⟩

/-- C8: `get_letter`, `get_pref` and `get_next` consult their table under the
key obtained by stripping the sentinel from the argument and lowercasing,
whereas `get_ending` lowercases only and performs no sentinel stripping; the
sentinel contributes no character to any context key (prepending or
appending it to a lookup argument does not change the result); and absence
of the backing table and absence of the key both yield `none`. -/
theorem lookup_normalization (schema : Schema) (s : String) :
    (schema.get_letter s = schema.mapping.bind
       (fun t => tableGet t (lowerString (stripDummy s)))) ∧
    (schema.get_pref s = schema.prev_mapping.bind
       (fun t => tableGet t (lowerString (stripDummy s)))) ∧
    (schema.get_next s = schema.next_mapping.bind
       (fun t => tableGet t (lowerString (stripDummy s)))) ∧
    (schema.get_ending s = schema.ending_mapping.bind
       (fun t => tableGet t (lowerString s))) ∧
    (schema.get_pref (DUMMY_SYMBOL ++ s) = schema.get_pref s ∧
      schema.get_pref (s ++ DUMMY_SYMBOL) = schema.get_pref s) ∧
    (schema.get_next (DUMMY_SYMBOL ++ s) = schema.get_next s ∧
      schema.get_next (s ++ DUMMY_SYMBOL) = schema.get_next s) ∧
    (schema.get_letter (DUMMY_SYMBOL ++ s) = schema.get_letter s ∧
      schema.get_letter (s ++ DUMMY_SYMBOL) = schema.get_letter s) ∧
    (schema.mapping = none → schema.get_letter s = none) ∧
    (∀ t, schema.mapping = some t → tableGet t (lowerString (stripDummy s)) = none →
      schema.get_letter s = none) ∧
    (schema.ending_mapping = none → schema.get_ending s = none) ∧
    (∀ t, schema.ending_mapping = some t → tableGet t (lowerString s) = none →
      schema.get_ending s = none) := by
  refine ⟨rfl, rfl, rfl, rfl, ⟨?_, ?_⟩, ⟨?_, ?_⟩, ⟨?_, ?_⟩, ?_, ?_, ?_, ?_⟩
  · rw [Schema.get_pref, stripDummy_dummy_append]; rfl
  · rw [Schema.get_pref, stripDummy_append_dummy]; rfl
  · rw [Schema.get_next, stripDummy_dummy_append]; rfl
  · rw [Schema.get_next, stripDummy_append_dummy]; rfl
  · rw [Schema.get_letter, stripDummy_dummy_append]; rfl
  · rw [Schema.get_letter, stripDummy_append_dummy]; rfl
  · intro h; rw [Schema.get_letter, h]; rfl
  · intro t ht hk; rw [Schema.get_letter, ht, Option.some_bind, hk]
  · intro h; rw [Schema.get_ending, h]; rfl
  · intro t ht hk; rw [Schema.get_ending, ht, Option.some_bind, hk]

/-- Witness for C8 at a schema with an absent letter table: the lookup
yields no match. -/
theorem lookup_normalization_witness :
    emptySchema.mapping = none ∧ emptySchema.get_letter "а" = none :=
  ⟨rfl, (lookup_normalization emptySchema "а").2.2.2.2.2.2.2.1 rfl⟩

/-- C9: for every word token, the word transliterator pads the
ending-stripped body with exactly one sentinel at each end, produces one
letter-resolver output per consecutive width-3 window — exactly one window
per body letter, the window's middle element being that letter —
concatenates the outputs in order with no separators, and appends the
ending's output last; a word of length 0 yields empty output. -/
theorem parse_word_structure (s : String) (schema : Schema) :
    parse_word_by_schema s schema =
      strConcat ((windows3 ([DUMMY_SYMBOL] ++ wordBody s schema ++ [DUMMY_SYMBOL])).map
        (fun w => parse_letter w schema)) ++ wordTail s schema ∧
    (windows3 ([DUMMY_SYMBOL] ++ wordBody s schema ++ [DUMMY_SYMBOL])).map (fun w => w.2.1) =
      wordBody s schema ∧
    (windows3 ([DUMMY_SYMBOL] ++ wordBody s schema ++ [DUMMY_SYMBOL])).length =
      (wordBody s schema).length ∧
    (s = "" → parse_word_by_schema s schema = "") := by
  have hm : (windows3 ([DUMMY_SYMBOL] ++ wordBody s schema ++ [DUMMY_SYMBOL])).map
      (fun w => w.2.1) = wordBody s schema := by
    have h := windows3_middles (wordBody s schema) DUMMY_SYMBOL DUMMY_SYMBOL
    simpa using h
  refine ⟨?_, hm, ?_, ?_⟩
  · cases h : parse_ending (wordLetters s) schema <;>
      simp only [parse_word_by_schema, wordBody, wordTail, wordLetters] at *
  · conv_rhs => rw [← hm]
    rw [List.length_map]
  · intro h
    subst h
    rfl

/-- Witness for C9 at the empty word. -/
theorem parse_word_structure_witness :
    ("" : String) = "" ∧ parse_word_by_schema "" testSchema = "" :=
  ⟨rfl, (parse_word_structure "" testSchema).2.2.2 rfl⟩

/-- C10: the lookups `get_letter`, `get_pref` and `get_next` remove every
occurrence of the sentinel character from their argument before consulting
their tables, so a literal `"$"` in the input is indistinguishable from
sentinel padding: it is looked up under the key with all `"$"` removed — the
empty string when alone — and when no table maps that residual key the
character falls through to identity passthrough and is emitted unchanged. -/
theorem dollar_input_conflated_with_sentinel (schema : Schema) :
    (∀ s : String,
      schema.get_letter s = schema.get_letter (stripDummy s) ∧
      schema.get_pref s = schema.get_pref (stripDummy s) ∧
      schema.get_next s = schema.get_next (stripDummy s)) ∧
    (schema.get_letter DUMMY_SYMBOL = schema.mapping.bind (fun t => tableGet t "") ∧
      schema.get_pref DUMMY_SYMBOL = schema.prev_mapping.bind (fun t => tableGet t "") ∧
      schema.get_next DUMMY_SYMBOL = schema.next_mapping.bind (fun t => tableGet t "")) ∧
    (schema.get_pref (DUMMY_SYMBOL ++ DUMMY_SYMBOL) = none →
      schema.get_next (DUMMY_SYMBOL ++ DUMMY_SYMBOL) = none →
      schema.get_letter DUMMY_SYMBOL = none →
      parse_by_schema DUMMY_SYMBOL schema = DUMMY_SYMBOL) := by
  refine ⟨?_, ⟨rfl, rfl, rfl⟩, ?_⟩
  · intro s
    refine ⟨?_, ?_, ?_⟩
    · rw [Schema.get_letter, Schema.get_letter, stripDummy_stripDummy]
    · rw [Schema.get_pref, Schema.get_pref, stripDummy_stripDummy]
    · rw [Schema.get_next, Schema.get_next, stripDummy_stripDummy]
  · intro h1 h2 h3
    have hpl : parse_letter (DUMMY_SYMBOL, DUMMY_SYMBOL, DUMMY_SYMBOL) schema =
        DUMMY_SYMBOL := by
      simp only [parse_letter, h1, h2, h3, Option.orElse, Option.getD]
      decide
    have hstep : parse_by_schema DUMMY_SYMBOL schema =
        ((parse_letter (DUMMY_SYMBOL, DUMMY_SYMBOL, DUMMY_SYMBOL) schema ++ "") ++ "") ++ "" :=
      rfl
    rw [hstep, hpl, str_append_empty, str_append_empty, str_append_empty]

/-- Witness for C10 at a concrete schema with no empty-string keys: the
input consisting of the bare sentinel character passes through unchanged. -/
theorem dollar_input_conflated_with_sentinel_witness :
    testSchema.get_pref (DUMMY_SYMBOL ++ DUMMY_SYMBOL) = none ∧
    testSchema.get_next (DUMMY_SYMBOL ++ DUMMY_SYMBOL) = none ∧
    testSchema.get_letter DUMMY_SYMBOL = none ∧
    parse_by_schema DUMMY_SYMBOL testSchema = DUMMY_SYMBOL :=
  ⟨by decide, by decide, by decide,
    (dollar_input_conflated_with_sentinel testSchema).2.2 (by decide) (by decide) (by decide)⟩
